import Mathlib

/-!
# license: MIT LICENSE / AUTHORS writer and copyright stamper

A shallow embedding of `license.go` and statements about it.

* Go strings that the program builds itself (paths, arguments, template text, standard
  output) are Lean `String`s.
* File contents are byte sequences (`Bytes`); they may be any bytes at all, so the scanner
  `bufio.ScanRunes` that `hasCopyright` uses is modelled on bytes, with Go's UTF-8 decoding.
* `text/template` is modelled for the constructs the three templates of the program use:
  literal text, `{{.Field}}`, `{{.}}` and `{{range .}} ... {{end}}`.
* For the stamper and the two writers the file system is a map from paths to contents
  (`Files`); each system call whose error the source inspects has a fault switch in `Env`,
  and `panic` is the `Except.error` result.
* For the directory walk the file system is a tree (`FsNode`), which records what `os.Stat`,
  `os.Open` and `Readdirnames` report for each entry.
-/

set_option autoImplicit false

namespace License

/-! ## text/template -/

/-- Lexical items of a template: literal text and the inside of a `{{ ... }}` action. -/
inductive Token where
  | text (s : List Char)
  | action (s : List Char)

/-- Lexer. `inAction = false`: scanning literal text up to the next `{{`;
`inAction = true`: scanning an action up to the next `}}`. `acc` holds the characters of the
item being scanned, last one first. An action that is not closed is a parse error. -/
def lex : Bool → List Char → List Char → Option (List Token)
  | false, acc, [] => some (if acc = [] then [] else [Token.text acc.reverse])
  | true, _, [] => none
  | false, acc, '{' :: '{' :: rest =>
    (lex true [] rest).map fun ts => if acc = [] then ts else Token.text acc.reverse :: ts
  | false, acc, c :: cs => lex false (c :: acc) cs
  | true, acc, '}' :: '}' :: rest =>
    (lex false [] rest).map fun ts => Token.action acc.reverse :: ts
  | true, acc, c :: cs => lex true (c :: acc) cs

mutual
/-- Parse tree of a template. -/
inductive Node where
  | text (s : String)
  | field (name : String)
  | dot
  | range (body : Nodes)
/-- A sequence of template nodes. -/
inductive Nodes where
  | nil
  | cons (n : Node) (rest : Nodes)
end

/-- Append one node at the end of a sequence. -/
def Nodes.snoc : Nodes → Node → Nodes
  | .nil, n => .cons n .nil
  | .cons m rest, n => .cons m (rest.snoc n)

/-- The kinds of action the program's templates contain. -/
inductive Action where
  | field (name : String)
  | dot
  | range
  | «end»

/-- Classify the inside of `{{ ... }}`. Anything but `.Name`, `.`, `range .` and `end` is
outside the modelled fragment and counts as a parse error. -/
def parseAction (s : List Char) : Option Action :=
  if s = ['e', 'n', 'd'] then some Action.end
  else if s = ['r', 'a', 'n', 'g', 'e', ' ', '.'] then some Action.range
  else if s = ['.'] then some Action.dot
  else
    match s with
    | '.' :: name =>
      if name ≠ [] ∧ name.all Char.isAlphanum then some (Action.field ⟨name⟩) else none
    | _ => none

/-- Build the tree from the token list. `cur` is the sequence being built and `stack` the
enclosing sequences of the `range` actions that are still open. -/
def build : List Token → Nodes → List Nodes → Option Nodes
  | [], cur, [] => some cur
  | [], _, _ :: _ => none
  | Token.text s :: ts, cur, stack => build ts (cur.snoc (Node.text ⟨s⟩)) stack
  | Token.action a :: ts, cur, stack =>
    match parseAction a, stack with
    | some (Action.field name), _ => build ts (cur.snoc (Node.field name)) stack
    | some Action.dot, _ => build ts (cur.snoc Node.dot) stack
    | some Action.range, _ => build ts Nodes.nil (cur :: stack)
    | some Action.end, outer :: stack' => build ts (outer.snoc (Node.range cur)) stack'
    | some Action.end, [] => none
    | none, _ => none

/-- `template.New("").Parse(src)`; `none` is a parse error. -/
def parse (src : String) : Option Nodes :=
  (lex false [] src.data).bind fun ts => build ts Nodes.nil []

/-- Data handed to `Execute`. -/
inductive Value where
  | str (s : String)
  | int (i : Int)
  | list (xs : List Value)
  | struct (fields : List (String × Value))

/-- Field of a struct value by name (promoted fields of embedded structs are listed with the
struct's own); `none` when the value has no such field. -/
def Value.field : Value → String → Option Value
  | Value.struct fields, name => (fields.find? fun f => f.1 == name).map Prod.snd
  | _, _ => none

/-- Text printed for a value by an action: a string verbatim, an integer in decimal. The
templates of the program print nothing else, and other values are left out (`none`). -/
def Value.print : Value → Option String
  | Value.str s => some s
  | Value.int i => some (toString i)
  | _ => none

/-- Concatenate the outputs of the iterations of a `range`. -/
def concatAll (f : Value → Option String) : List Value → Option String
  | [] => some ""
  | x :: xs => (f x).bind fun a => (concatAll f xs).map fun b => a ++ b

mutual
/-- Output of one node with `.` bound to `v`; `none` is an execution error. -/
def Node.exec : Node → Value → Option String
  | Node.text s, _ => some s
  | Node.field name, v => (v.field name).bind Value.print
  | Node.dot, v => v.print
  | Node.range body, v =>
    match v with
    | Value.list xs => concatAll (fun x => body.exec x) xs
    | _ => none
/-- Output of a sequence of nodes. -/
def Nodes.exec : Nodes → Value → Option String
  | Nodes.nil, _ => some ""
  | Nodes.cons n rest, v => (n.exec v).bind fun a => (rest.exec v).map fun b => a ++ b
end

/-- `template.Must(template.New("").Parse(src)).Execute(w, data)`: the text written to `w`,
or `none` when parsing or execution fails (the source panics then). -/
def render (src : String) (data : Value) : Option String :=
  (parse src).bind fun t => t.exec data

/-! ## Data and templates of the program -/

structure Copyright where
  Year : Int
  ProjectName : String
deriving DecidableEq

structure Comment where
  Prefix : String
  Suffix : String
deriving DecidableEq

/-- The map `commentStyle`; `none` for a key that is not in the map. -/
def commentStyle (ext : String) : Option Comment :=
  if ext = ".go" then some ⟨"// ", "\n"⟩
  else if ext = ".cpp" then some ⟨"// ", "\n"⟩
  else if ext = ".sh" then some ⟨"# ", "\n"⟩
  else if ext = ".bash" then some ⟨"# ", "\n"⟩
  else if ext = ".c" then some ⟨"/* ", "*/\n"⟩
  else none

/-- Indexing the map without the `ok` result: the zero `Comment` for a missing key. -/
def commentStyleAt (ext : String) : Comment :=
  (commentStyle ext).getD ⟨"", ""⟩

/-- The text of the template `licenseFile` behind its two actions. -/
def licenseBody : String :=
  " Authors\n" ++
  "\n" ++
  "Permission is hereby granted, free of charge, to any person obtaining\n" ++
  "a copy of this software and associated documentation files (the\n" ++
  "\"Software\"), to deal in the Software without restriction, including\n" ++
  "without limitation the rights to use, copy, modify, merge, publish,\n" ++
  "distribute, sublicense, and/or sell copies of the Software, and to\n" ++
  "permit persons to whom the Software is furnished to do so, subject to\n" ++
  "the following conditions:\n" ++
  "\n" ++
  "The above copyright notice and this permission notice shall be\n" ++
  "included in all copies or substantial portions of the Software.\n" ++
  "\n" ++
  "THE SOFTWARE IS PROVIDED \"AS IS\", WITHOUT WARRANTY OF ANY KIND,\n" ++
  "EXPRESS OR IMPLIED, INCLUDING BUT NOT LIMITED TO THE WARRANTIES OF\n" ++
  "MERCHANTABILITY, FITNESS FOR A PARTICULAR PURPOSE AND NONINFRINGEMENT.\n" ++
  "IN NO EVENT SHALL THE AUTHORS OR COPYRIGHT HOLDERS BE LIABLE FOR ANY\n" ++
  "CLAIM, DAMAGES OR OTHER LIABILITY, WHETHER IN AN ACTION OF CONTRACT,\n" ++
  "TORT OR OTHERWISE, ARISING FROM, OUT OF OR IN CONNECTION WITH THE\n" ++
  "SOFTWARE OR THE USE OR OTHER DEALINGS IN THE SOFTWARE.\n"

/-- The template `licenseFile` (braces are written as `\x7b` and `\x7d`): the MIT license
text, whose first line is `Copyright © {{.Year}} the {{.ProjectName}} Authors`. -/
def licenseFile : String :=
  "Copyright © \x7b\x7b.Year\x7d\x7d the \x7b\x7b.ProjectName\x7d\x7d" ++ licenseBody

/-- The template `authorsFile`: `{{range .}}{{.}}`, a newline, `{{end}}`. -/
def authorsFile : String :=
  "\x7b\x7brange .\x7d\x7d\x7b\x7b.\x7d\x7d\n\x7b\x7bend\x7d\x7d"

/-- The template `copyrightComment`:
`{{.Prefix}}© {{.Year}} the {{.ProjectName}} Authors under the MIT license. See AUTHORS for
the list of authors.{{.Suffix}}` followed by a newline. -/
def copyrightComment : String :=
  "\x7b\x7b.Prefix\x7d\x7d© \x7b\x7b.Year\x7d\x7d the \x7b\x7b.ProjectName\x7d\x7d Authors under the MIT license. See AUTHORS for the list of authors.\x7b\x7b.Suffix\x7d\x7d\n"

/-- A `Copyright` as template data. -/
def Copyright.toValue (cr : Copyright) : Value :=
  Value.struct [("Year", Value.int cr.Year), ("ProjectName", Value.str cr.ProjectName)]

/-- The anonymous struct `info` of `addCopyright`, which embeds `Copyright` and `Comment`. -/
def infoValue (cr : Copyright) (cm : Comment) : Value :=
  Value.struct [("Year", Value.int cr.Year), ("ProjectName", Value.str cr.ProjectName),
    ("Prefix", Value.str cm.Prefix), ("Suffix", Value.str cm.Suffix)]

/-- A `[]string` as template data. -/
def authorsValue (as : List String) : Value :=
  Value.list (as.map Value.str)

/-- The copyright comment that `addCopyright` writes at the head of the temporary file. -/
def renderCopyrightComment (cm : Comment) (cr : Copyright) : Option String :=
  render copyrightComment (infoValue cr cm)

/-- The text that `writeAuthorsFile` writes. -/
def renderAuthors (as : List String) : Option String :=
  render authorsFile (authorsValue as)

/-- The text that `writeLicenseFile` writes. -/
def renderLicense (cr : Copyright) : Option String :=
  render licenseFile cr.toValue

/-! ## Bytes and UTF-8 -/

/-- A byte sequence: the content of a file. -/
abbrev Bytes := List Nat

/-- UTF-8 encoding of one code point. -/
def encodeRune (n : Nat) : Bytes :=
  if n < 0x80 then [n]
  else if n < 0x800 then [0xC0 + n / 0x40, 0x80 + n % 0x40]
  else if n < 0x10000 then [0xE0 + n / 0x1000, 0x80 + n / 0x40 % 0x40, 0x80 + n % 0x40]
  else [0xF0 + n / 0x40000, 0x80 + n / 0x1000 % 0x40, 0x80 + n / 0x40 % 0x40, 0x80 + n % 0x40]

/-- The bytes of a Go string: the UTF-8 encoding of its text. -/
def goBytes (s : String) : Bytes :=
  s.data.flatMap fun c => encodeRune c.toNat

/-- The table `first` of `unicode/utf8`: information about the first byte of an encoding.
`0xF0` is ASCII, `0xF1` an invalid first byte; otherwise the low three bits are the size of
the encoding and the high four bits index `acceptRanges`. -/
def first (b : Nat) : Nat :=
  if b < 0x80 then 0xF0
  else if b < 0xC2 then 0xF1
  else if b < 0xE0 then 0x02
  else if b = 0xE0 then 0x13
  else if b < 0xED then 0x03
  else if b = 0xED then 0x23
  else if b < 0xF0 then 0x03
  else if b = 0xF0 then 0x34
  else if b < 0xF4 then 0x04
  else if b = 0xF4 then 0x44
  else 0xF1

/-- The table `acceptRanges` of `unicode/utf8`: the range allowed for the second byte. -/
def acceptRanges (i : Nat) : Nat × Nat :=
  if i = 1 then (0xA0, 0xBF)
  else if i = 2 then (0x80, 0x9F)
  else if i = 3 then (0x90, 0xBF)
  else if i = 4 then (0x80, 0x8F)
  else (0x80, 0xBF)

/-- The size that `utf8.DecodeRune(p)` returns: the width of the encoding at the head of
`p`, `1` when the head is not a valid encoding, `0` for empty `p`. -/
def decodeRuneSize (p : Bytes) : Nat :=
  match p with
  | [] => 0
  | p0 :: rest =>
    let x := first p0
    if x ≥ 0xF0 then 1
    else
      let sz := x % 8
      let accept := acceptRanges (x / 16)
      if p.length < sz then 1
      else
        match rest with
        | [] => 1
        | b1 :: rest1 =>
          if b1 < accept.1 ∨ accept.2 < b1 then 1
          else if sz ≤ 2 then 2
          else
            match rest1 with
            | [] => 1
            | b2 :: rest2 =>
              if b2 < 0x80 ∨ 0xBF < b2 then 1
              else if sz ≤ 3 then 3
              else
                match rest2 with
                | [] => 1
                | b3 :: _ => if b3 < 0x80 ∨ 0xBF < b3 then 1 else 4

/-- The bytes of the replacement character U+FFFD, the token for an invalid encoding. -/
def errorRune : Bytes := [0xEF, 0xBF, 0xBD]

/-- The split function `bufio.ScanRunes` on the unread rest of the input (the scanner asks
for more input whenever the rune at the head may be incomplete, so the function sees the
whole rest): how far to advance, and the token. -/
def scanRunes (data : Bytes) : Nat × Bytes :=
  match data with
  | [] => (0, [])
  | b0 :: _ =>
    if b0 < 0x80 then (1, [b0])
    else
      let width := decodeRuneSize data
      if width > 1 then (width, data.take width) else (1, errorRune)

/-- The loop of `hasCopyright` over the unread bytes `data`. Each token takes at least one
byte of the input, so `data.length` rounds are enough to reach the end of the input;
`fuel` counts the rounds left. -/
def scanLoop : Nat → Bytes → Bool
  | 0, _ => false
  | fuel + 1, data =>
    if data = [] then false
    else
      let tok := (scanRunes data).2
      if tok = goBytes "\n" then false
      else if tok = goBytes "©" then true
      else scanLoop fuel (data.drop (scanRunes data).1)

/-- The result of `hasCopyright(f)` for a file with content `data`. -/
def hasCopyright (data : Bytes) : Bool :=
  scanLoop data.length data

/-- The first line of a content: the bytes before the first newline byte, or all of them
when there is no newline. -/
def firstLine (data : Bytes) : Bytes :=
  data.takeWhile fun b => b != 0x0A

/-! ## Paths -/

/-- Loop of `path.Ext` over the characters of the path from the last one backwards; `acc` is
the part of the path behind the characters already seen. -/
def extLoop : List Char → List Char → List Char
  | [], _ => []
  | c :: before, acc =>
    if c = '/' then []
    else if c = '.' then '.' :: acc
    else extLoop before (c :: acc)

/-- `path.Ext(p)`: the suffix beginning at the final dot in the final slash-separated element
of `p`, empty if there is no such dot. -/
def pathExt (p : String) : String :=
  ⟨extLoop p.data.reverse []⟩

/-- The slash-separated elements of a path; `acc` holds the element being read, last
character first. -/
def splitSlash : List Char → List Char → List (List Char)
  | [], acc => [acc.reverse]
  | c :: cs, acc =>
    if c = '/' then acc.reverse :: splitSlash cs [] else splitSlash cs (c :: acc)

/-- One element of a path in `path.Clean`; `out` holds the elements kept so far, last one
first. Empty and `.` elements are dropped; `..` removes the element before it, is kept at
the start of a path that is not rooted and dropped at the start of a rooted one. -/
def cleanStep (rooted : Bool) (out : List (List Char)) (elem : List Char) :
    List (List Char) :=
  if elem = [] ∨ elem = ['.'] then out
  else if elem = ['.', '.'] then
    match out with
    | [] => if rooted then [] else [elem]
    | last :: before => if last = ['.', '.'] then elem :: out else before
  else elem :: out

/-- `path.Clean(p)`. -/
def pathClean (p : String) : String :=
  let rooted := p.data.head? = some '/'
  let out := ((splitSlash p.data []).foldl (cleanStep rooted) []).reverse
  if rooted then ⟨'/' :: ['/'].intercalate out⟩
  else if out = [] then "." else ⟨['/'].intercalate out⟩

/-- `path.Join(dir, ent)`: the non-empty arguments joined by a slash, cleaned. -/
def pathJoin (dir ent : String) : String :=
  if dir = "" ∧ ent = "" then ""
  else if dir = "" then pathClean ent
  else if ent = "" then pathClean dir
  else pathClean (dir ++ "/" ++ ent)

/-! ## The directory walk -/

mutual
/-- What the walk meets at a path. -/
inductive FsNode where
  /-- `os.Stat` succeeds and `IsDir()` is false. -/
  | file
  /-- A directory that can be opened and listed, with its entries in the order in which
  `Readdirnames` returns them. -/
  | dir (ents : Entries)
  /-- A directory for which `os.Open` or `Readdirnames` fails. -/
  | unreadable
  /-- An entry for which `os.Stat` fails. -/
  | broken
/-- The entries of a directory: names and what they name. -/
inductive Entries where
  | nil
  | cons (name : String) (node : FsNode) (rest : Entries)
end

mutual
/-- `sourceFiles(dir)` where `node` is what the path `dir` names. -/
def sourceFiles (dir : String) : FsNode → Except String (List String)
  | FsNode.dir ents => walk dir ents
  | _ => Except.error ("cannot list " ++ dir)
/-- The loop of `sourceFiles(dir)` over the names of the directory. -/
def walk (dir : String) : Entries → Except String (List String)
  | Entries.nil => Except.ok []
  | Entries.cons ent node rest =>
    match node with
    | FsNode.broken => Except.error ("cannot stat " ++ pathJoin dir ent)
    | FsNode.file =>
      (walk dir rest).map fun r =>
        if (commentStyle (pathExt ent)).isSome then pathJoin dir ent :: r else r
    | FsNode.dir sub =>
      (sourceFiles (pathJoin dir ent) (FsNode.dir sub)).bind fun found =>
        (walk dir rest).map fun r => found ++ r
    | FsNode.unreadable => Except.error ("cannot list " ++ pathJoin dir ent)
end

/-! ## The file system and the stamper -/

/-- The files by path, with their contents. -/
abbrev Files := String → Option Bytes

/-- What the program can change: the files and the text written to standard output. -/
structure World where
  files : Files
  stdout : String

/-- What the program cannot decide: the name that `ioutil.TempFile` picks and which system
calls fail (`true`: the call returns an error). -/
structure Env where
  tempName : String
  openErr : Bool
  seekErr : Bool
  readErr : Bool
  tempErr : Bool
  writeErr : Bool
  renameErr : Bool
  createErr : Bool

/-- Write `data` at path `p`. -/
def Files.put (fs : Files) (p : String) (data : Bytes) : Files :=
  fun q => if q = p then some data else fs q

/-- Remove the file at path `p`. -/
def Files.remove (fs : Files) (p : String) : Files :=
  fun q => if q = p then none else fs q

/-- `os.Rename(old, new)` for an existing file `old`. -/
def Files.rename (fs : Files) (old new : String) : Files :=
  match fs old with
  | none => fs
  | some data => (fs.remove old).put new data

/-- `addCopyright(cr, p)`; `Except.error` is a panic. -/
def addCopyright (env : Env) (cr : Copyright) (p : String) (w : World) :
    Except String World :=
  -- f, err := os.Open(p)
  match (if env.openErr then none else w.files p) with
  | none => Except.error ("open " ++ p)
  | some data =>
    -- hasCopyright(f); its deferred f.Seek(0, 0) runs on both results
    if env.seekErr then Except.error ("seek " ++ p)
    else if hasCopyright data then
      Except.ok { w with stdout := w.stdout ++ (p ++ " has a copyright, skipping\n") }
    -- contents, err := ioutil.ReadAll(f)
    else if env.readErr then Except.error ("read " ++ p)
    -- tmp, err := ioutil.TempFile("", "license")
    else if env.tempErr ∨ (w.files env.tempName).isSome then Except.error "tempfile"
    else
      -- template.Must(template.New("").Parse(copyrightComment)).Execute(tmp, info)
      match renderCopyrightComment (commentStyleAt (pathExt p)) cr with
      | none => Except.error "template"
      | some comment =>
        -- tmp.Write(contents)
        if env.writeErr then Except.error ("write " ++ env.tempName)
        else
          let written := w.files.put env.tempName (goBytes comment ++ data)
          let out := w.stdout ++ (p ++ "\n")
          -- os.Rename(tname, p), whose error is not looked at
          if env.renameErr then Except.ok { files := written, stdout := out }
          else Except.ok { files := written.rename env.tempName p, stdout := out }

/-- The common body of `writeLicenseFile` and `writeAuthorsFile`: `os.OpenFile` of `name`
with `O_WRONLY|O_CREATE|O_EXCL`, then the rendered template written to the new file. -/
def writeIfAbsent (env : Env) (name : String) (text : Option String) (w : World) :
    Except String World :=
  if (w.files name).isSome then
    Except.ok { w with stdout := w.stdout ++ (name ++ " file exists, skipping\n") }
  else if env.createErr then Except.error ("open " ++ name)
  else
    match text with
    | none => Except.error "template"
    | some t =>
      if env.writeErr then Except.error ("write " ++ name)
      else Except.ok { files := w.files.put name (goBytes t),
                       stdout := w.stdout ++ ("Writing " ++ name ++ " file\n") }

/-- `writeLicenseFile(cr)`. -/
def writeLicenseFile (env : Env) (cr : Copyright) (w : World) : Except String World :=
  writeIfAbsent env "LICENSE" (renderLicense cr) w

/-- `writeAuthorsFile(as)`. -/
def writeAuthorsFile (env : Env) (as : List String) (w : World) : Except String World :=
  writeIfAbsent env "AUTHORS" (renderAuthors as) w

/-! ## Notions used in the statements -/

/-- Sequence of nodes from a list. -/
def Nodes.ofList : List Node → Nodes
  | [] => Nodes.nil
  | n :: ns => Nodes.cons n (Nodes.ofList ns)

/-- No system call of the stamping path of `addCopyright` fails. -/
def Env.stampOk (env : Env) : Bool :=
  !env.openErr && !env.seekErr && !env.readErr && !env.tempErr && !env.writeErr &&
    !env.renameErr

/-- The lines of a text: the pieces that end in a newline, in order, without the newline.
`acc` holds the line being read, last character first. -/
def textLines : List Char → List Char → List String
  | [], _ => []
  | c :: cs, acc =>
    if c = '\n' then ⟨acc.reverse⟩ :: textLines cs [] else textLines cs (c :: acc)

mutual
/-- Every directory below can be listed and every entry can be stat-ed. -/
def FsNode.readable : FsNode → Bool
  | FsNode.file => true
  | FsNode.dir ents => ents.readable
  | FsNode.unreadable => false
  | FsNode.broken => false
/-- Every entry of the list is readable. -/
def Entries.readable : Entries → Bool
  | Entries.nil => true
  | Entries.cons _ node rest => node.readable && rest.readable
end

/-- The extensions of the comment-style registry. -/
def registryExts : List String := [".go", ".cpp", ".c", ".sh", ".bash"]

/-- `FileUnder dir ents p name`: a file called `name` lies at path `p`, at any depth, in the
directory `dir` whose entries are `ents`. -/
inductive FileUnder : String → Entries → String → String → Prop where
  | here (dir name : String) (rest : Entries) :
      FileUnder dir (Entries.cons name FsNode.file rest) (pathJoin dir name) name
  | inside (dir sub : String) (ents rest : Entries) (p name : String) :
      FileUnder (pathJoin dir sub) ents p name →
      FileUnder dir (Entries.cons sub (FsNode.dir ents) rest) p name
  | later (dir other : String) (node : FsNode) (rest : Entries) (p name : String) :
      FileUnder dir rest p name → FileUnder dir (Entries.cons other node rest) p name

/-- `ext` is the suffix of `name` that starts at the final dot of `name`. -/
def FinalDotSuffix (name ext : String) : Prop :=
  ∃ stem rest : List Char, name.data = stem ++ '.' :: rest ∧ '.' ∉ rest ∧ ext.data = '.' :: rest

/-- A small tree: `a.go`, `b.txt`, a hidden directory `.git` holding `x.sh` and `y.C`, an
empty directory `lib.go`, and `z.c`. -/
def sampleTree : Entries :=
  Entries.cons "a.go" FsNode.file
    (Entries.cons "b.txt" FsNode.file
      (Entries.cons ".git"
        (FsNode.dir (Entries.cons "x.sh" FsNode.file (Entries.cons "y.C" FsNode.file Entries.nil)))
        (Entries.cons "lib.go" (FsNode.dir Entries.nil)
          (Entries.cons "z.c" FsNode.file Entries.nil))))

/-- An environment in which no system call fails and the temporary file is `tmp`. -/
def Env.quiet (tmp : String) : Env :=
  { tempName := tmp, openErr := false, seekErr := false, readErr := false, tempErr := false,
    writeErr := false, renameErr := false, createErr := false }

/-- An environment in which only `os.Rename` fails, as it does when the directory for
temporary files is on another file system than the source tree. -/
def Env.renameFails (tmp : String) : Env :=
  { tempName := tmp, openErr := false, seekErr := false, readErr := false, tempErr := false,
    writeErr := false, renameErr := true, createErr := false }

/-- A world with the single file `p`, of content `data`, and nothing written yet. -/
def World.single (p : String) (data : Bytes) : World :=
  { files := fun q => if q = p then some data else none, stdout := "" }

/-! ## Statements -/

theorem parse_copyrightComment :
    parse copyrightComment = some (Nodes.ofList [Node.field "Prefix", Node.text "© ",
      Node.field "Year", Node.text " the ", Node.field "ProjectName",
      Node.text " Authors under the MIT license. See AUTHORS for the list of authors.",
      Node.field "Suffix", Node.text "\n"]) := by
  rfl

theorem parse_authorsFile :
    parse authorsFile =
      some (Nodes.ofList [Node.range (Nodes.ofList [Node.dot, Node.text "\n"])]) := by
  rfl

theorem renderCopyrightComment_text (cm : Comment) (cr : Copyright) :
    renderCopyrightComment cm cr = some (cm.Prefix ++ "© " ++ toString cr.Year ++ " the " ++
      cr.ProjectName ++ " Authors under the MIT license. See AUTHORS for the list of authors." ++
      cm.Suffix ++ "\n") := by
  unfold renderCopyrightComment render
  rw [parse_copyrightComment]
  simp [Nodes.ofList, Nodes.exec, Node.exec, infoValue, Value.field, Value.print, List.find?,
    String.append_assoc]

/-! ### hasCopyright -/

theorem goBytes_copyright : goBytes "©" = [0xC2, 0xA9] := by decide

theorem goBytes_newline : goBytes "\n" = [0x0A] := by decide

theorem firstLine_cons_ne (b : Nat) (rest : Bytes) (hb : b ≠ 0x0A) :
    firstLine (b :: rest) = b :: firstLine rest := by
  simp [firstLine, List.takeWhile_cons, hb]

theorem firstLine_cons_newline (rest : Bytes) : firstLine (0x0A :: rest) = [] := by
  simp [firstLine, List.takeWhile_cons]

theorem head_of_firstLine (a : Nat) (l rest : Bytes) (h : firstLine rest = a :: l) :
    rest.head? = some a := by
  cases rest with
  | nil => simp [firstLine] at h
  | cons b r =>
    by_cases hb : b = 0x0A
    · subst hb; simp [firstLine_cons_newline] at h
    · rw [firstLine_cons_ne b r hb] at h
      simp at h; simp [h.1]

theorem infix_firstLine_cons (b : Nat) (rest : Bytes) (hb : b ≠ 0x0A)
    (h : ¬ (b = 0xC2 ∧ rest.head? = some 0xA9)) :
    ([0xC2, 0xA9] <:+: firstLine (b :: rest)) ↔ ([0xC2, 0xA9] <:+: firstLine rest) := by
  rw [firstLine_cons_ne b rest hb, List.infix_cons_iff]
  constructor
  · rintro (hp | hi)
    · exfalso
      apply h
      obtain ⟨t, ht⟩ := hp
      simp at ht
      exact ⟨ht.1.symm, head_of_firstLine _ _ _ ht.2.symm⟩
    · exact hi
  · exact Or.inr

theorem first_cases (b : Nat) (h : 0x80 ≤ b) :
    (first b = 0xF1 ∧ b ≠ 0xC2) ∨
    (first b = 0x02 ∧ 0xC2 ≤ b) ∨
    ((first b = 0x03 ∨ first b = 0x13 ∨ first b = 0x23) ∧ b ≠ 0xC2) ∨
    ((first b = 0x04 ∨ first b = 0x34 ∨ first b = 0x44) ∧ b ≠ 0xC2) := by
  unfold first
  split_ifs <;> omega

theorem acceptRanges_bounds (i : Nat) :
    0x80 ≤ (acceptRanges i).1 ∧ (acceptRanges i).2 ≤ 0xBF := by
  unfold acceptRanges
  split_ifs <;> simp

theorem decodeRuneSize_cases (b0 : Nat) (rest : Bytes) (h0 : 0x80 ≤ b0) :
    (decodeRuneSize (b0 :: rest) = 1 ∧ ¬ (b0 = 0xC2 ∧ rest.head? = some 0xA9)) ∨
    (∃ b1 r, rest = b1 :: r ∧ decodeRuneSize (b0 :: rest) = 2 ∧ 0x80 ≤ b1 ∧ b1 ≤ 0xBF) ∨
    (∃ b1 b2 r, rest = b1 :: b2 :: r ∧ decodeRuneSize (b0 :: rest) = 3 ∧ b0 ≠ 0xC2 ∧
      0x80 ≤ b1 ∧ b1 ≤ 0xBF ∧ 0x80 ≤ b2 ∧ b2 ≤ 0xBF) ∨
    (∃ b1 b2 b3 r, rest = b1 :: b2 :: b3 :: r ∧ decodeRuneSize (b0 :: rest) = 4 ∧ b0 ≠ 0xC2 ∧
      0x80 ≤ b1 ∧ b1 ≤ 0xBF ∧ 0x80 ≤ b2 ∧ b2 ≤ 0xBF ∧ 0x80 ≤ b3 ∧ b3 ≤ 0xBF) := by
  have hacc := acceptRanges_bounds (first b0 / 16)
  rcases first_cases b0 h0 with ⟨hf, hne⟩ | ⟨hf, hge⟩ | ⟨hf, hne⟩ | ⟨hf, hne⟩
  · left
    refine ⟨?_, fun h => hne h.1⟩
    simp [decodeRuneSize, hf]
  · rcases rest with _ | ⟨b1, r⟩
    · left
      simp [decodeRuneSize, hf]
    · by_cases hb : b1 < 0x80 ∨ 0xBF < b1
      · left
        refine ⟨?_, ?_⟩
        · simp [decodeRuneSize, hf, acceptRanges, hb]
        · simp only [List.head?_cons, Option.some.injEq]
          omega
      · right; left
        refine ⟨b1, r, rfl, ?_, by omega, by omega⟩
        simp [decodeRuneSize, hf, acceptRanges, hb]
  · have hsz : first b0 % 8 = 3 := by rcases hf with hf | hf | hf <;> simp [hf]
    have hlt : ¬ first b0 ≥ 0xF0 := by rcases hf with hf | hf | hf <;> simp [hf]
    rcases rest with _ | ⟨b1, _ | ⟨b2, r⟩⟩
    · left
      exact ⟨by simp [decodeRuneSize, hlt, hsz], fun h => hne h.1⟩
    · left
      exact ⟨by simp [decodeRuneSize, hlt, hsz], fun h => hne h.1⟩
    · by_cases hb1 : b1 < (acceptRanges (first b0 / 16)).1 ∨ (acceptRanges (first b0 / 16)).2 < b1
      · left
        exact ⟨by simp [decodeRuneSize, hlt, hsz, hb1], fun h => hne h.1⟩
      · by_cases hb2 : b2 < 0x80 ∨ 0xBF < b2
        · left
          exact ⟨by simp [decodeRuneSize, hlt, hsz, hb1, hb2], fun h => hne h.1⟩
        · right; right; left
          refine ⟨b1, b2, r, rfl, ?_, hne, by omega, by omega, by omega, by omega⟩
          simp [decodeRuneSize, hlt, hsz, hb1, hb2]
  · have hsz : first b0 % 8 = 4 := by rcases hf with hf | hf | hf <;> simp [hf]
    have hlt : ¬ first b0 ≥ 0xF0 := by rcases hf with hf | hf | hf <;> simp [hf]
    rcases rest with _ | ⟨b1, _ | ⟨b2, _ | ⟨b3, r⟩⟩⟩
    · left
      exact ⟨by simp [decodeRuneSize, hlt, hsz], fun h => hne h.1⟩
    · left
      exact ⟨by simp [decodeRuneSize, hlt, hsz], fun h => hne h.1⟩
    · left
      exact ⟨by simp [decodeRuneSize, hlt, hsz], fun h => hne h.1⟩
    · by_cases hb1 : b1 < (acceptRanges (first b0 / 16)).1 ∨ (acceptRanges (first b0 / 16)).2 < b1
      · left
        exact ⟨by simp [decodeRuneSize, hlt, hsz, hb1], fun h => hne h.1⟩
      · by_cases hb2 : b2 < 0x80 ∨ 0xBF < b2
        · left
          exact ⟨by simp [decodeRuneSize, hlt, hsz, hb1, hb2], fun h => hne h.1⟩
        · by_cases hb3 : b3 < 0x80 ∨ 0xBF < b3
          · left
            exact ⟨by simp [decodeRuneSize, hlt, hsz, hb1, hb2, hb3], fun h => hne h.1⟩
          · right; right; right
            refine ⟨b1, b2, b3, r, rfl, ?_, hne, by omega, by omega, by omega, by omega,
              by omega, by omega⟩
            simp [decodeRuneSize, hlt, hsz, hb1, hb2, hb3]

theorem scanRunes_ascii (b0 : Nat) (rest : Bytes) (h : b0 < 0x80) :
    scanRunes (b0 :: rest) = (1, [b0]) := by
  simp [scanRunes, h]

theorem scanRunes_wide (b0 : Nat) (rest : Bytes) (h : 0x80 ≤ b0) :
    scanRunes (b0 :: rest) =
      if decodeRuneSize (b0 :: rest) > 1
      then (decodeRuneSize (b0 :: rest), (b0 :: rest).take (decodeRuneSize (b0 :: rest)))
      else (1, errorRune) := by
  have h' : ¬ b0 < 0x80 := by omega
  simp [scanRunes, h']

theorem scanLoop_iff (fuel : Nat) : ∀ data : Bytes, data.length ≤ fuel →
    (scanLoop fuel data = true ↔ [0xC2, 0xA9] <:+: firstLine data) := by
  induction fuel with
  | zero =>
    intro data h
    have : data = [] := List.length_eq_zero.mp (Nat.le_zero.mp h)
    subst this
    simp [scanLoop, firstLine]
  | succ n ih =>
    intro data h
    rcases data with _ | ⟨b0, rest⟩
    · simp [scanLoop, firstLine]
    · have hlen : rest.length ≤ n := by simpa using h
      unfold scanLoop
      rw [goBytes_newline, goBytes_copyright]
      by_cases hb : b0 < 0x80
      · rw [scanRunes_ascii b0 rest hb]
        by_cases hnl : b0 = 0x0A
        · subst hnl
          simp [firstLine_cons_newline]
        · have hc : ¬ (b0 = 0xC2 ∧ rest.head? = some 0xA9) := fun hh => by omega
          rw [infix_firstLine_cons b0 rest hnl hc, ← ih rest hlen]
          simp [hnl]
      · have hb' : 0x80 ≤ b0 := by omega
        have hnl : b0 ≠ 0x0A := by omega
        rw [scanRunes_wide b0 rest hb']
        rcases decodeRuneSize_cases b0 rest hb' with ⟨hs, hc⟩ | ⟨b1, r, rfl, hs, h1, h1'⟩ |
          ⟨b1, b2, r, rfl, hs, hne, h1, h1', h2, h2'⟩ |
          ⟨b1, b2, b3, r, rfl, hs, hne, h1, h1', h2, h2', h3, h3'⟩
        · rw [hs, infix_firstLine_cons b0 rest hnl hc, ← ih rest hlen]
          simp [errorRune]
        · have hlen' : r.length ≤ n := by simp at hlen; omega
          have hb1 : b1 ≠ 0x0A := by omega
          have hc1 : ¬ (b1 = 0xC2 ∧ r.head? = some 0xA9) := fun hh => by omega
          rw [hs]
          by_cases hcopy : b0 = 0xC2 ∧ b1 = 0xA9
          · obtain ⟨rfl, rfl⟩ := hcopy
            simp only [firstLine_cons_ne _ _ hnl, firstLine_cons_ne _ _ hb1]
            simp
            exact ⟨[], firstLine r, by simp⟩
          · have hc0 : ¬ (b0 = 0xC2 ∧ (b1 :: r).head? = some 0xA9) := by simpa using hcopy
            rw [infix_firstLine_cons b0 _ hnl hc0, infix_firstLine_cons b1 _ hb1 hc1,
              ← ih r hlen']
            have : ¬ (b0 = 0xC2 ∧ b1 = 0xA9) := hcopy
            simp [this]
        · have hlen' : r.length ≤ n := by simp at hlen; omega
          have hb1 : b1 ≠ 0x0A := by omega
          have hb2 : b2 ≠ 0x0A := by omega
          have hc0 : ¬ (b0 = 0xC2 ∧ (b1 :: b2 :: r).head? = some 0xA9) := fun hh => hne hh.1
          have hc1 : ¬ (b1 = 0xC2 ∧ (b2 :: r).head? = some 0xA9) := fun hh => by omega
          have hc2 : ¬ (b2 = 0xC2 ∧ r.head? = some 0xA9) := fun hh => by omega
          rw [hs, infix_firstLine_cons b0 _ hnl hc0, infix_firstLine_cons b1 _ hb1 hc1,
            infix_firstLine_cons b2 _ hb2 hc2, ← ih r hlen']
          simp
        · have hlen' : r.length ≤ n := by simp at hlen; omega
          have hb1 : b1 ≠ 0x0A := by omega
          have hb2 : b2 ≠ 0x0A := by omega
          have hb3 : b3 ≠ 0x0A := by omega
          have hc0 : ¬ (b0 = 0xC2 ∧ (b1 :: b2 :: b3 :: r).head? = some 0xA9) :=
            fun hh => hne hh.1
          have hc1 : ¬ (b1 = 0xC2 ∧ (b2 :: b3 :: r).head? = some 0xA9) := fun hh => by omega
          have hc2 : ¬ (b2 = 0xC2 ∧ (b3 :: r).head? = some 0xA9) := fun hh => by omega
          have hc3 : ¬ (b3 = 0xC2 ∧ r.head? = some 0xA9) := fun hh => by omega
          rw [hs, infix_firstLine_cons b0 _ hnl hc0, infix_firstLine_cons b1 _ hb1 hc1,
            infix_firstLine_cons b2 _ hb2 hc2, infix_firstLine_cons b3 _ hb3 hc3, ← ih r hlen']
          simp


theorem firstLine_append_newline (line rest : Bytes) :
    firstLine (line ++ 0x0A :: rest) <+: line := by
  induction line with
  | nil => simp [firstLine_cons_newline]
  | cons b l ih =>
    by_cases hb : b = 0x0A
    · subst hb
      simp [firstLine_cons_newline]
    · rw [List.cons_append, firstLine_cons_ne b _ hb]
      exact (List.prefix_cons_inj b).mpr ih

theorem hasCopyright_eq_true_iff (data : Bytes) :
    hasCopyright data = true ↔ goBytes "©" <:+: firstLine data := by
  rw [goBytes_copyright]
  exact scanLoop_iff data.length data (Nat.le_refl _)

theorem hasCopyright_eq_false_iff (data : Bytes) :
    hasCopyright data = false ↔ ¬ goBytes "©" <:+: firstLine data := by
  rw [← hasCopyright_eq_true_iff, Bool.not_eq_true]

theorem hasCopyright_false_of_line (line rest : Bytes) (hno : ¬ goBytes "©" <:+: line) :
    hasCopyright (line ++ 0x0A :: rest) = false := by
  rw [hasCopyright_eq_false_iff]
  intro h
  exact hno (List.IsInfix.trans h (firstLine_append_newline line rest).isInfix)

theorem infix_firstLine_skip (e r : Bytes) (h : ∀ b ∈ e, b ≠ 0x0A ∧ b ≠ 0xC2) :
    ([0xC2, 0xA9] <:+: firstLine (e ++ r)) ↔ ([0xC2, 0xA9] <:+: firstLine r) := by
  induction e with
  | nil => simp
  | cons b l ih =>
    have hb := h b (by simp)
    have hl : ∀ x ∈ l, x ≠ 0x0A ∧ x ≠ 0xC2 := fun x hx => h x (List.mem_cons_of_mem _ hx)
    rw [List.cons_append, infix_firstLine_cons b _ hb.1 (fun hh => hb.2 hh.1), ih hl]

theorem encodeRune_shape (n : Nat) (hn : n ≠ 0x0A) (hc : n ≠ 0xA9) :
    ∃ b0 tail, encodeRune n = b0 :: tail ∧ b0 ≠ 0x0A ∧
      (b0 ≠ 0xC2 ∨ ∃ b1 t, tail = b1 :: t ∧ b1 ≠ 0xA9) ∧
      (∀ b ∈ tail, b ≠ 0x0A ∧ b ≠ 0xC2) := by
  unfold encodeRune
  split_ifs with h1 h2 h3
  · exact ⟨n, [], rfl, hn, Or.inl (by omega), by simp⟩
  · refine ⟨_, _, rfl, by omega, ?_, ?_⟩
    · by_cases hb : 0xC0 + n / 0x40 = 0xC2
      · right
        exact ⟨_, [], rfl, by omega⟩
      · exact Or.inl hb
    · intro b hb
      simp only [List.mem_singleton] at hb
      subst hb
      omega
  · refine ⟨_, _, rfl, by omega, Or.inl (by omega), ?_⟩
    intro b hb
    simp only [List.mem_cons, List.mem_singleton, List.not_mem_nil, or_false] at hb
    rcases hb with rfl | rfl <;> omega
  · refine ⟨_, _, rfl, by omega, Or.inl (by omega), ?_⟩
    intro b hb
    simp only [List.mem_cons, List.mem_singleton, List.not_mem_nil, or_false] at hb
    rcases hb with rfl | rfl | rfl <;> omega

theorem infix_firstLine_text (cs : List Char) :
    ([0xC2, 0xA9] <:+: firstLine (cs.flatMap fun c => encodeRune c.toNat)) ↔
      '©' ∈ cs.takeWhile fun c => c != '\n' := by
  induction cs with
  | nil => simp [firstLine]
  | cons c rest ih =>
    rw [List.flatMap_cons]
    by_cases hnl : c = '\n'
    · subst hnl
      have : encodeRune ('\n' : Char).toNat = [0x0A] := by decide
      rw [this, List.singleton_append, firstLine_cons_newline]
      simp
    · by_cases hcp : c = '©'
      · subst hcp
        have : encodeRune ('©' : Char).toNat = [0xC2, 0xA9] := by decide
        have h1 : (0xC2 : Nat) ≠ 0x0A := by decide
        have h2 : (0xA9 : Nat) ≠ 0x0A := by decide
        rw [this, List.cons_append, List.cons_append, firstLine_cons_ne _ _ h1,
          firstLine_cons_ne _ _ h2]
        simp only [List.nil_append, List.takeWhile_cons]
        constructor
        · intro _; simp
        · intro _
          exact ⟨[], firstLine (rest.flatMap fun c => encodeRune c.toNat), by simp⟩
      · have hn : c.toNat ≠ 0x0A := fun e => hnl (by rw [← Char.ofNat_toNat c, e])
        have hc : c.toNat ≠ 0xA9 := fun e => hcp (by rw [← Char.ofNat_toNat c, e])
        obtain ⟨b0, tail, he, h0, hpair, htail⟩ := encodeRune_shape c.toNat hn hc
        have hfirst : ¬ (b0 = 0xC2 ∧ (tail ++ rest.flatMap fun c => encodeRune c.toNat).head? = some 0xA9) := by
          rintro ⟨hb, hh⟩
          rcases hpair with hp | ⟨b1, t, rfl, hb1⟩
          · exact hp hb
          · simp at hh; exact hb1 hh
        rw [he, List.cons_append, infix_firstLine_cons b0 _ h0 hfirst,
          infix_firstLine_skip tail _ htail, ih]
        simp [List.takeWhile_cons, hnl, Ne.symm hcp]

theorem hasCopyright_text (s : String) :
    hasCopyright (goBytes s) = true ↔ '©' ∈ s.data.takeWhile fun c => c != '\n' := by
  rw [hasCopyright_eq_true_iff, goBytes_copyright]
  exact infix_firstLine_text s.data

/-! ### The stamper -/

theorem goBytes_append (a b : String) : goBytes (a ++ b) = goBytes a ++ goBytes b := by
  simp [goBytes, String.data_append, List.flatMap_append]

theorem rename_put_fresh (fs : Files) (tmp p : String) (data : Bytes)
    (hfresh : fs tmp = none) : ((fs.put tmp data).rename tmp p) = fs.put p data := by
  funext q
  simp only [Files.rename, Files.put, Files.remove, if_true]
  by_cases hq : q = p
  · simp [hq]
  · by_cases hq' : q = tmp
    · simp [hq, hq', hfresh]
    · simp [hq, hq']

theorem addCopyright_skip_run (env : Env) (cr : Copyright) (p : String) (w : World)
    (data : Bytes) (hfile : w.files p = some data)
    (hopen : env.openErr = false) (hseek : env.seekErr = false)
    (hmark : goBytes "©" <:+: firstLine data) :
    addCopyright env cr p w =
      Except.ok { files := w.files, stdout := w.stdout ++ (p ++ " has a copyright, skipping\n") } := by
  have hc : hasCopyright data = true := (hasCopyright_eq_true_iff data).mpr hmark
  simp [addCopyright, hopen, hseek, hfile, hc]

theorem addCopyright_stamp_run (env : Env) (cr : Copyright) (cm : Comment) (p : String)
    (w : World) (data : Bytes) (hfile : w.files p = some data)
    (hext : commentStyle (pathExt p) = some cm)
    (hmark : ¬ goBytes "©" <:+: firstLine data)
    (hfresh : w.files env.tempName = none) (henv : env.stampOk = true) :
    ∃ comment, renderCopyrightComment cm cr = some comment ∧
      addCopyright env cr p w =
        Except.ok { files := w.files.put p (goBytes comment ++ data),
                    stdout := w.stdout ++ (p ++ "\n") } ∧
      (goBytes comment ++ data).drop (goBytes comment).length = data := by
  have hc : hasCopyright data = false := (hasCopyright_eq_false_iff data).mpr hmark
  simp only [Env.stampOk, Bool.and_eq_true, Bool.not_eq_true'] at henv
  obtain ⟨⟨⟨⟨⟨hopen, hseek⟩, hread⟩, htemp⟩, hwrite⟩, hrename⟩ := henv
  refine ⟨_, renderCopyrightComment_text cm cr, ?_, by simp⟩
  have hcm : commentStyleAt (pathExt p) = cm := by simp [commentStyleAt, hext]
  simp [addCopyright, hopen, hseek, hread, htemp, hwrite, hrename, hfile, hc, hfresh, hcm,
    renderCopyrightComment_text, rename_put_fresh]

theorem firstLine_append_of_no_newline (a b : Bytes) (h : 0x0A ∉ a) :
    firstLine (a ++ b) = a ++ firstLine b := by
  induction a with
  | nil => simp
  | cons x l ih =>
    have hx : x ≠ 0x0A := fun e => h (by simp [e])
    have hl : 0x0A ∉ l := fun e => h (List.mem_cons_of_mem _ e)
    rw [List.cons_append, firstLine_cons_ne x _ hx, ih hl, List.cons_append]

theorem mark_after_lead (pre rest : Bytes) (h : 0x0A ∉ pre) :
    goBytes "©" <:+: firstLine (pre ++ (goBytes "©" ++ rest)) := by
  rw [firstLine_append_of_no_newline pre _ h, goBytes_copyright]
  have h1 : (0xC2 : Nat) ≠ 0x0A := by decide
  have h2 : (0xA9 : Nat) ≠ 0x0A := by decide
  rw [List.cons_append, List.cons_append, firstLine_cons_ne _ _ h1, firstLine_cons_ne _ _ h2]
  exact ⟨pre, [] ++ firstLine rest, by simp⟩

theorem registry_lead_no_newline (ext : String) (cm : Comment) (h : commentStyle ext = some cm) :
    0x0A ∉ goBytes cm.Prefix := by
  unfold commentStyle at h
  split_ifs at h <;> simp only [Option.some.injEq] at h <;> subst h <;> decide

theorem stamped_has_mark (ext : String) (cm : Comment) (cr : Copyright) (data : Bytes)
    (comment : String) (h : commentStyle ext = some cm)
    (hr : renderCopyrightComment cm cr = some comment) :
    goBytes "©" <:+: firstLine (goBytes comment ++ data) := by
  rw [renderCopyrightComment_text] at hr
  simp only [Option.some.injEq] at hr
  subst hr
  have hsp : goBytes "© " = goBytes "©" ++ goBytes " " := by decide
  simp only [goBytes_append, hsp, List.append_assoc]
  exact mark_after_lead _ _ (registry_lead_no_newline ext cm h)

/-- C3: stamping a file of a registered extension and stamping the result again, with any
second copyright record, leaves every file as the first stamping left it: the second call
finds `©` in the first line and skips. -/
theorem addCopyright_idempotent (env1 env2 : Env) (cr1 cr2 : Copyright) (cm : Comment)
    (p : String) (w : World) (data : Bytes) (hfile : w.files p = some data)
    (hext : commentStyle (pathExt p) = some cm)
    (hfresh : w.files env1.tempName = none) (henv1 : env1.stampOk = true)
    (hopen : env2.openErr = false) (hseek : env2.seekErr = false) :
    ∃ w1 w2, addCopyright env1 cr1 p w = Except.ok w1 ∧
      addCopyright env2 cr2 p w1 = Except.ok w2 ∧ w2.files = w1.files := by
  by_cases hmark : goBytes "©" <:+: firstLine data
  · have hopen1 : env1.openErr = false := by
      simp only [Env.stampOk, Bool.and_eq_true, Bool.not_eq_true'] at henv1
      exact henv1.1.1.1.1.1
    have hseek1 : env1.seekErr = false := by
      simp only [Env.stampOk, Bool.and_eq_true, Bool.not_eq_true'] at henv1
      exact henv1.1.1.1.1.2
    refine ⟨_, _, addCopyright_skip_run env1 cr1 p w data hfile hopen1 hseek1 hmark,
      addCopyright_skip_run env2 cr2 p _ data hfile hopen hseek hmark, rfl⟩
  · obtain ⟨comment, hr, hrun, -⟩ :=
      addCopyright_stamp_run env1 cr1 cm p w data hfile hext hmark hfresh henv1
    have hfile1 : (w.files.put p (goBytes comment ++ data)) p = some (goBytes comment ++ data) := by
      simp [Files.put]
    refine ⟨_, _, hrun, addCopyright_skip_run env2 cr2 p _ _ hfile1 hopen hseek
      (stamped_has_mark _ cm cr1 data comment hext hr), rfl⟩

/-! ### LICENSE and AUTHORS -/

set_option maxRecDepth 100000 in
theorem parse_licenseFile :
    parse licenseFile = some (Nodes.ofList [Node.text "Copyright © ", Node.field "Year",
      Node.text " the ", Node.field "ProjectName", Node.text licenseBody]) := by
  rfl

theorem renderLicense_text (cr : Copyright) :
    renderLicense cr =
      some ("Copyright © " ++ toString cr.Year ++ " the " ++ cr.ProjectName ++ licenseBody) := by
  unfold renderLicense render
  rw [parse_licenseFile]
  simp [Nodes.ofList, Nodes.exec, Node.exec, Copyright.toValue, Value.field, Value.print,
    List.find?, String.append_assoc]

theorem writeIfAbsent_exists (env : Env) (name : String) (text : Option String) (w : World)
    (h : (w.files name).isSome = true) :
    writeIfAbsent env name text w =
      Except.ok { files := w.files, stdout := w.stdout ++ (name ++ " file exists, skipping\n") } := by
  simp [writeIfAbsent, h]

theorem writeIfAbsent_absent (env : Env) (name t : String) (w : World)
    (h : w.files name = none) (hc : env.createErr = false) (hw : env.writeErr = false) :
    writeIfAbsent env name (some t) w =
      Except.ok { files := w.files.put name (goBytes t),
                  stdout := w.stdout ++ ("Writing " ++ name ++ " file\n") } := by
  simp [writeIfAbsent, h, hc, hw]

theorem join_cons (x : String) (xs : List String) :
    String.join (x :: xs) = x ++ String.join xs := by
  apply String.ext
  simp [String.data_join, String.data_append]

theorem renderAuthors_join (as : List String) :
    renderAuthors as = some (String.join (as.map fun a => a ++ "\n")) := by
  unfold renderAuthors render
  rw [parse_authorsFile]
  have h : ∀ l : List String,
      concatAll (fun x => x.print.bind fun a => some (a ++ "\n")) (l.map Value.str) =
        some (String.join (l.map fun a => a ++ "\n")) := by
    intro l
    induction l with
    | nil => rfl
    | cons a rest ih =>
      simp only [List.map_cons, concatAll, ih, join_cons]
      simp [Value.print]
  simp [Nodes.ofList, Nodes.exec, Node.exec, authorsValue, h]

theorem textLines_line (a rest acc : List Char) (h : '\n' ∉ a) :
    textLines (a ++ '\n' :: rest) acc = ⟨acc.reverse ++ a⟩ :: textLines rest [] := by
  induction a generalizing acc with
  | nil => simp [textLines]
  | cons c cs ih =>
    have hc : c ≠ '\n' := fun e => h (by simp [e])
    have hcs : '\n' ∉ cs := fun e => h (List.mem_cons_of_mem _ e)
    simp [textLines, hc, ih _ hcs]

theorem textLines_join (as : List String) (h : ∀ a ∈ as, '\n' ∉ a.data) :
    textLines (String.join (as.map fun a => a ++ "\n")).data [] = as := by
  induction as with
  | nil => rfl
  | cons a rest ih =>
    have ha : '\n' ∉ a.data := h a (by simp)
    have hrest : ∀ b ∈ rest, '\n' ∉ b.data := fun b hb => h b (List.mem_cons_of_mem _ hb)
    rw [List.map_cons, join_cons, String.data_append, String.data_append]
    have : ("\n" : String).data = ['\n'] := rfl
    rw [this, List.append_assoc, List.singleton_append, textLines_line _ _ _ ha, ih hrest]
    simp

/-- C9: the AUTHORS text is every author followed by a newline, in argument order; no
authors give the empty text; and when no author contains a newline the lines of the text
are exactly the authors, in order. -/
theorem renderAuthors_lines (as : List String) :
    renderAuthors as = some (String.join (as.map fun a => a ++ "\n")) ∧
    renderAuthors [] = some "" ∧
    ((∀ a ∈ as, '\n' ∉ a.data) →
      ∃ text, renderAuthors as = some text ∧ textLines text.data [] = as) :=
  ⟨renderAuthors_join as, renderAuthors_join [],
    fun h => ⟨_, renderAuthors_join as, textLines_join as h⟩⟩


/-- C8: when LICENSE (AUTHORS) exists, `writeLicenseFile` (`writeAuthorsFile`) returns
without an error, leaves every file as it was and writes the line `LICENSE file exists,
skipping` (`AUTHORS file exists, skipping`); when the file is absent and creating and
writing it succeed, the file is created with the rendered template as its content and no
other file changes. -/
theorem write_only_if_absent (env : Env) (cr : Copyright) (as : List String) (w : World) :
    ((w.files "LICENSE").isSome = true →
      writeLicenseFile env cr w =
        Except.ok { files := w.files, stdout := w.stdout ++ "LICENSE file exists, skipping\n" }) ∧
    ((w.files "AUTHORS").isSome = true →
      writeAuthorsFile env as w =
        Except.ok { files := w.files, stdout := w.stdout ++ "AUTHORS file exists, skipping\n" }) ∧
    (w.files "LICENSE" = none → env.createErr = false → env.writeErr = false →
      ∃ text, renderLicense cr = some text ∧
        writeLicenseFile env cr w =
          Except.ok { files := w.files.put "LICENSE" (goBytes text),
                      stdout := w.stdout ++ "Writing LICENSE file\n" }) ∧
    (w.files "AUTHORS" = none → env.createErr = false → env.writeErr = false →
      ∃ text, renderAuthors as = some text ∧
        writeAuthorsFile env as w =
          Except.ok { files := w.files.put "AUTHORS" (goBytes text),
                      stdout := w.stdout ++ "Writing AUTHORS file\n" }) := by
  refine ⟨fun h => ?_, fun h => ?_, fun h hc hw => ?_, fun h hc hw => ?_⟩
  · exact writeIfAbsent_exists env "LICENSE" _ w h
  · exact writeIfAbsent_exists env "AUTHORS" _ w h
  · refine ⟨_, renderLicense_text cr, ?_⟩
    unfold writeLicenseFile
    rw [renderLicense_text cr]
    exact writeIfAbsent_absent env "LICENSE" _ w h hc hw
  · refine ⟨_, renderAuthors_join as, ?_⟩
    unfold writeAuthorsFile
    rw [renderAuthors_join as]
    exact writeIfAbsent_absent env "AUTHORS" _ w h hc hw

/-! ### The shape of the copyright comment -/

theorem digitChar_ne_newline : ∀ d : Nat, d < 10 → Nat.digitChar d ≠ '\n' := by
  decide

theorem toDigitsCore_no_newline (fuel : Nat) : ∀ (n : Nat) (ds : List Char),
    '\n' ∉ ds → '\n' ∉ Nat.toDigitsCore 10 fuel n ds := by
  induction fuel with
  | zero => intro n ds h; simpa [Nat.toDigitsCore] using h
  | succ f ih =>
    intro n ds h
    have hd : '\n' ∉ Nat.digitChar (n % 10) :: ds := by
      simp only [List.mem_cons, not_or]
      exact ⟨fun e => digitChar_ne_newline _ (Nat.mod_lt n (by decide)) e.symm, h⟩
    simp only [Nat.toDigitsCore]
    split_ifs
    · exact hd
    · exact ih _ _ hd

theorem natRepr_no_newline (n : Nat) : '\n' ∉ (Nat.repr n).data := by
  simp only [Nat.repr, Nat.toDigits, List.asString]
  exact toDigitsCore_no_newline _ _ _ (by simp)

theorem decimal_no_newline (i : Int) : '\n' ∉ (toString i).data := by
  cases i with
  | ofNat m => exact natRepr_no_newline m
  | negSucc m =>
    show '\n' ∉ ("-" ++ Nat.repr (Nat.succ m)).data
    rw [String.data_append, List.mem_append, not_or]
    exact ⟨by decide, natRepr_no_newline _⟩

theorem registry_cases (ext : String) (cm : Comment) (h : commentStyle ext = some cm) :
    cm = ⟨"// ", "\n"⟩ ∨ cm = ⟨"# ", "\n"⟩ ∨ cm = ⟨"/* ", "*/\n"⟩ := by
  unfold commentStyle at h
  split_ifs at h <;> simp only [Option.some.injEq] at h <;> subst h <;> simp

theorem comment_shape (pre tail : String) (cr : Copyright) (hpre : '\n' ∉ pre.data)
    (htail : '\n' ∉ tail.data) (hname : '\n' ∉ cr.ProjectName.data) :
    ∃ body : String, '\n' ∉ body.data ∧
      renderCopyrightComment ⟨pre, tail ++ "\n"⟩ cr = some (body ++ "\n\n") := by
  refine ⟨pre ++ "© " ++ toString cr.Year ++ " the " ++ cr.ProjectName ++
    " Authors under the MIT license. See AUTHORS for the list of authors." ++ tail, ?_, ?_⟩
  · have hy := decimal_no_newline cr.Year
    simp only [String.data_append, List.mem_append, not_or]
    refine ⟨⟨⟨⟨⟨⟨hpre, by decide⟩, hy⟩, by decide⟩, hname⟩, by decide⟩, htail⟩
  · rw [renderCopyrightComment_text]
    congr 1
    apply String.ext
    simp [String.data_append]

/-- C7, as amended: for every registered extension and every project name without a
newline, the rendered copyright comment is one line without a newline followed by two
newline characters: the comment line and an empty line. -/
theorem copyrightComment_two_newlines (ext : String) (cm : Comment) (cr : Copyright)
    (hext : commentStyle ext = some cm) (hname : '\n' ∉ cr.ProjectName.data) :
    ∃ body : String, '\n' ∉ body.data ∧
      renderCopyrightComment cm cr = some (body ++ "\n\n") ∧
      (body ++ "\n\n").data.count '\n' = 2 := by
  have hcount : ∀ body : String, '\n' ∉ body.data → (body ++ "\n\n").data.count '\n' = 2 := by
    intro body hb
    rw [String.data_append, List.count_append, List.count_eq_zero_of_not_mem hb]
    rfl
  rcases registry_cases ext cm hext with rfl | rfl | rfl
  · obtain ⟨body, hb, hr⟩ := comment_shape "// " "" cr (by decide) (by decide) hname
    exact ⟨body, hb, hr, hcount body hb⟩
  · obtain ⟨body, hb, hr⟩ := comment_shape "# " "" cr (by decide) (by decide) hname
    exact ⟨body, hb, hr, hcount body hb⟩
  · obtain ⟨body, hb, hr⟩ := comment_shape "/* " "*/" cr (by decide) (by decide) hname
    exact ⟨body, hb, hr, hcount body hb⟩

/-- C7 (counterexample): the comment rendered for a `.go` file, the year 2024 and the
project `MyProj` contains two newline characters, not one. -/
theorem copyrightComment_go_not_one_line :
    ∃ cm text, commentStyle ".go" = some cm ∧ '\n' ∉ ("MyProj" : String).data ∧
      renderCopyrightComment cm ⟨2024, "MyProj"⟩ = some text ∧
      text = "// © 2024 the MyProj Authors under the MIT license. See AUTHORS for the list of authors.\n\n" ∧
      text.data.count '\n' = 2 ∧ text.data.count '\n' ≠ 1 := by
  refine ⟨⟨"// ", "\n"⟩, _, rfl, by decide, renderCopyrightComment_text _ _, by decide,
    by decide, by decide⟩

/-- Witness for `copyrightComment_two_newlines`: the `.c` style. -/
theorem copyrightComment_two_newlines_witness :
    ∃ body : String, '\n' ∉ body.data ∧
      renderCopyrightComment ⟨"/* ", "*/\n"⟩ ⟨2024, "MyProj"⟩ = some (body ++ "\n\n") ∧
      (body ++ "\n\n").data.count '\n' = 2 :=
  copyrightComment_two_newlines ".c" ⟨"/* ", "*/\n"⟩ ⟨2024, "MyProj"⟩ (by decide) (by decide)

/-! ### The directory walk -/

theorem commentStyle_isSome_iff (ext : String) :
    (commentStyle ext).isSome = true ↔ ext ∈ registryExts := by
  unfold commentStyle registryExts
  split_ifs <;> simp_all

theorem walk_exact (ents : Entries) : ∀ dir : String, ents.readable = true →
    ∃ found, walk dir ents = Except.ok found ∧
      ∀ p, p ∈ found ↔ ∃ name, FileUnder dir ents p name ∧ pathExt name ∈ registryExts := by
  intro dir h
  match ents with
  | Entries.nil =>
    refine ⟨[], rfl, fun p => ?_⟩
    simp only [List.not_mem_nil, false_iff]
    rintro ⟨name, hf, -⟩
    cases hf
  | Entries.cons ent FsNode.broken rest => simp [Entries.readable, FsNode.readable] at h
  | Entries.cons ent FsNode.unreadable rest => simp [Entries.readable, FsNode.readable] at h
  | Entries.cons ent FsNode.file rest =>
    have hr : rest.readable = true := by simpa [Entries.readable, FsNode.readable] using h
    obtain ⟨found, hw, hm⟩ := walk_exact rest dir hr
    refine ⟨_, by simp only [walk, hw]; rfl, fun p => ?_⟩
    constructor
    · intro hp
      by_cases hreg : (commentStyle (pathExt ent)).isSome = true
      · simp only [hreg, if_true, List.mem_cons] at hp
        rcases hp with rfl | hp
        · exact ⟨ent, FileUnder.here dir ent rest, (commentStyle_isSome_iff _).mp hreg⟩
        · obtain ⟨name, hf, hn⟩ := (hm p).mp hp
          exact ⟨name, FileUnder.later dir ent _ rest p name hf, hn⟩
      · simp only [hreg] at hp
        obtain ⟨name, hf, hn⟩ := (hm p).mp hp
        exact ⟨name, FileUnder.later dir ent _ rest p name hf, hn⟩
    · rintro ⟨name, hf, hn⟩
      cases hf with
      | here =>
        have hreg := (commentStyle_isSome_iff _).mpr hn
        simp [hreg]
      | later _ _ _ _ _ _ hf =>
        have hp := (hm p).mpr ⟨name, hf, hn⟩
        by_cases hreg : (commentStyle (pathExt ent)).isSome = true
        · simp [hreg, hp]
        · simpa [hreg] using hp
  | Entries.cons ent (FsNode.dir sub) rest =>
    have hr : sub.readable = true ∧ rest.readable = true := by
      simpa [Entries.readable, FsNode.readable] using h
    obtain ⟨found, hw, hm⟩ := walk_exact rest dir hr.2
    obtain ⟨found', hw', hm'⟩ := walk_exact sub (pathJoin dir ent) hr.1
    refine ⟨found' ++ found, by simp only [walk, sourceFiles, hw, hw']; rfl, fun p => ?_⟩
    rw [List.mem_append]
    constructor
    · rintro (hp | hp)
      · obtain ⟨name, hf, hn⟩ := (hm' p).mp hp
        exact ⟨name, FileUnder.inside dir ent sub rest p name hf, hn⟩
      · obtain ⟨name, hf, hn⟩ := (hm p).mp hp
        exact ⟨name, FileUnder.later dir ent _ rest p name hf, hn⟩
    · rintro ⟨name, hf, hn⟩
      cases hf with
      | inside _ _ _ _ _ _ hf => exact Or.inl ((hm' p).mpr ⟨name, hf, hn⟩)
      | later _ _ _ _ _ _ hf => exact Or.inr ((hm p).mpr ⟨name, hf, hn⟩)
termination_by sizeOf ents

theorem extLoop_found (pre post acc : List Char) (hdot : '.' ∉ pre) (hslash : '/' ∉ pre) :
    extLoop (pre ++ '.' :: post) acc = '.' :: (pre.reverse ++ acc) := by
  induction pre generalizing acc with
  | nil => simp [extLoop]
  | cons c cs ih =>
    have h1 : c ≠ '.' := fun e => hdot (by simp [e])
    have h2 : c ≠ '/' := fun e => hslash (by simp [e])
    have h3 : '.' ∉ cs := fun e => hdot (List.mem_cons_of_mem _ e)
    have h4 : '/' ∉ cs := fun e => hslash (List.mem_cons_of_mem _ e)
    simp [extLoop, h1, h2, ih _ h3 h4]

theorem extLoop_nonempty (l acc e : List Char) (h : extLoop l acc = e) (he : e ≠ []) :
    ∃ pre post, l = pre ++ '.' :: post ∧ '.' ∉ pre ∧ e = '.' :: (pre.reverse ++ acc) := by
  induction l generalizing acc with
  | nil => simp [extLoop] at h; exact absurd h he
  | cons c cs ih =>
    by_cases h2 : c = '/'
    · simp [extLoop, h2] at h; exact absurd h he
    · by_cases h1 : c = '.'
      · refine ⟨[], cs, by simp [h1], by simp, ?_⟩
        simp [extLoop, h1] at h
        simp [← h]
      · simp only [extLoop, h1, h2, if_false] at h
        obtain ⟨pre, post, hl, hd, hv⟩ := ih _ h
        refine ⟨c :: pre, post, by simp [hl], ?_, by simp [hv]⟩
        simp only [List.mem_cons, not_or]
        exact ⟨fun e => h1 e.symm, hd⟩

theorem pathExt_eq_iff (name ext : String) (hne : ext.data ≠ []) (hslash : '/' ∉ ext.data) :
    pathExt name = ext ↔ FinalDotSuffix name ext := by
  constructor
  · intro h
    have h' : extLoop name.data.reverse [] = ext.data := by rw [← h]; rfl
    obtain ⟨pre, post, hl, hd, hv⟩ := extLoop_nonempty _ _ _ h' hne
    refine ⟨post.reverse, pre.reverse, ?_, by simpa using hd, by simpa using hv⟩
    have := congrArg List.reverse hl
    simpa using this
  · rintro ⟨stem, rest, hn, hd, hv⟩
    apply String.ext
    show extLoop name.data.reverse [] = ext.data
    have hs : '/' ∉ rest := fun e => hslash (by rw [hv]; exact List.mem_cons_of_mem _ e)
    rw [hn, hv, List.reverse_append, List.reverse_cons, List.append_assoc,
      List.singleton_append, extLoop_found _ _ _ (by simpa using hd) (by simpa using hs)]
    simp

/-- C5: when every directory under `root` can be listed, `sourceFiles(root)` returns, and
the paths it returns are exactly the paths of the files, at any depth under `root` and
under directories of any name, whose extension is one of `.go`, `.cpp`, `.c`, `.sh`,
`.bash`; the extension compared is the suffix of the file name from its final dot. -/
theorem sourceFiles_exact (root : String) (ents : Entries) (h : ents.readable = true) :
    (∃ found, sourceFiles root (FsNode.dir ents) = Except.ok found ∧
      ∀ p, p ∈ found ↔
        ∃ name, FileUnder root ents p name ∧ pathExt name ∈ [".go", ".cpp", ".c", ".sh", ".bash"]) ∧
    (∀ name ext, ext ∈ [".go", ".cpp", ".c", ".sh", ".bash"] →
      (pathExt name = ext ↔ FinalDotSuffix name ext)) := by
  refine ⟨?_, fun name ext hext => ?_⟩
  · obtain ⟨found, hw, hm⟩ := walk_exact ents root h
    exact ⟨found, by simp only [sourceFiles, hw], hm⟩
  · have : ext.data ≠ [] ∧ '/' ∉ ext.data := by
      simp only [List.mem_cons, List.mem_singleton, List.not_mem_nil, or_false] at hext
      rcases hext with rfl | rfl | rfl | rfl | rfl <;> decide
    exact pathExt_eq_iff name ext this.1 this.2

/-! ### The claims about the stamper and the templates -/

/-- C6: the rendered copyright comment is the prefix, `© `, the year in decimal, ` the `,
the project name, the fixed sentence, the suffix and one newline, with the prefix, the
suffix and the project name copied as they are. -/
theorem renderCopyrightComment_exact (cm : Comment) (cr : Copyright) :
    renderCopyrightComment cm cr = some (cm.Prefix ++ "© " ++ toString cr.Year ++ " the " ++
      cr.ProjectName ++ " Authors under the MIT license. See AUTHORS for the list of authors." ++
      cm.Suffix ++ "\n") :=
  renderCopyrightComment_text cm cr

/-- C4: `hasCopyright` looks at the first line only. For every content it is true exactly
when the bytes of `©` occur before the first newline byte, or anywhere when there is no
newline; it is false for the empty content and whenever no `©` stands before some newline;
and for a content that is the UTF-8 encoding of a text it is true exactly when the
character `©` is among the characters before the first newline character. -/
theorem hasCopyright_first_line_only (data : Bytes) :
    (hasCopyright data = true ↔ goBytes "©" <:+: firstLine data) ∧
    hasCopyright [] = false ∧
    (∀ line rest : Bytes, ¬ goBytes "©" <:+: line →
      hasCopyright (line ++ 0x0A :: rest) = false) ∧
    (∀ s : String,
      hasCopyright (goBytes s) = true ↔ '©' ∈ s.data.takeWhile fun c => c != '\n') :=
  ⟨hasCopyright_eq_true_iff data, rfl, hasCopyright_false_of_line, hasCopyright_text⟩

/-- Witness for `hasCopyright_first_line_only`: a `©` on the second line is not seen. -/
theorem hasCopyright_first_line_only_witness :
    hasCopyright (goBytes "package main" ++ 0x0A :: goBytes "// © 2024") = false :=
  (hasCopyright_first_line_only []).2.2.1 (goBytes "package main") (goBytes "// © 2024")
    (by decide)

/-- C2: on a file whose first line contains `©`, `addCopyright` returns with every file as
it was and has written the one line `<path> has a copyright, skipping`. -/
theorem addCopyright_skips (env : Env) (cr : Copyright) (p : String) (w : World)
    (data : Bytes) (hfile : w.files p = some data)
    (hopen : env.openErr = false) (hseek : env.seekErr = false)
    (hmark : goBytes "©" <:+: firstLine data) :
    addCopyright env cr p w =
      Except.ok { files := w.files, stdout := w.stdout ++ (p ++ " has a copyright, skipping\n") } :=
  addCopyright_skip_run env cr p w data hfile hopen hseek hmark

/-- Witness for `addCopyright_skips`: a Go file that starts with a copyright line. -/
theorem addCopyright_skips_witness :
    addCopyright (Env.quiet "/tmp/license1") ⟨2024, "MyProj"⟩ "a.go"
        (World.single "a.go" (goBytes "// © 2020 Someone\npackage main\n")) =
      Except.ok { files := (World.single "a.go" (goBytes "// © 2020 Someone\npackage main\n")).files,
                  stdout := "" ++ ("a.go" ++ " has a copyright, skipping\n") } :=
  addCopyright_skips (Env.quiet "/tmp/license1") ⟨2024, "MyProj"⟩ "a.go"
    (World.single "a.go" (goBytes "// © 2020 Someone\npackage main\n"))
    (goBytes "// © 2020 Someone\npackage main\n") (by simp [World.single]) rfl rfl (by decide)

/-- C1: on a file of a registered extension whose first line has no `©`, the empty file
included, `addCopyright` leaves the rendered copyright comment followed by the original
content at the path and changes no other file, and dropping the comment from the new
content gives the original content. -/
theorem addCopyright_stamps (env : Env) (cr : Copyright) (cm : Comment) (p : String)
    (w : World) (data : Bytes) (hfile : w.files p = some data)
    (hext : commentStyle (pathExt p) = some cm)
    (hmark : ¬ goBytes "©" <:+: firstLine data)
    (hfresh : w.files env.tempName = none) (henv : env.stampOk = true) :
    ∃ comment, renderCopyrightComment cm cr = some comment ∧
      addCopyright env cr p w =
        Except.ok { files := w.files.put p (goBytes comment ++ data),
                    stdout := w.stdout ++ (p ++ "\n") } ∧
      (goBytes comment ++ data).drop (goBytes comment).length = data :=
  addCopyright_stamp_run env cr cm p w data hfile hext hmark hfresh henv

/-- Witness for `addCopyright_stamps`: an empty C file. -/
theorem addCopyright_stamps_witness :
    ∃ comment, renderCopyrightComment ⟨"/* ", "*/\n"⟩ ⟨2024, "MyProj"⟩ = some comment ∧
      addCopyright (Env.quiet "/tmp/license1") ⟨2024, "MyProj"⟩ "src/x.c"
          (World.single "src/x.c" []) =
        Except.ok { files := (World.single "src/x.c" []).files.put "src/x.c" (goBytes comment ++ []),
                    stdout := "" ++ ("src/x.c" ++ "\n") } ∧
      (goBytes comment ++ []).drop (goBytes comment).length = [] :=
  addCopyright_stamps (Env.quiet "/tmp/license1") ⟨2024, "MyProj"⟩ ⟨"/* ", "*/\n"⟩ "src/x.c"
    (World.single "src/x.c" []) [] (by simp [World.single]) (by decide) (by decide)
    (by simp [World.single, Env.quiet]) rfl

/-- Witness for `addCopyright_idempotent`: a shell script stamped in 2024 and again in 2025. -/
theorem addCopyright_idempotent_witness :
    ∃ w1 w2, addCopyright (Env.quiet "/tmp/license1") ⟨2024, "MyProj"⟩ "run.sh"
        (World.single "run.sh" (goBytes "echo hi\n")) = Except.ok w1 ∧
      addCopyright (Env.quiet "/tmp/license2") ⟨2025, "Other"⟩ "run.sh" w1 = Except.ok w2 ∧
      w2.files = w1.files :=
  addCopyright_idempotent (Env.quiet "/tmp/license1") (Env.quiet "/tmp/license2") ⟨2024, "MyProj"⟩
    ⟨2025, "Other"⟩ ⟨"# ", "\n"⟩ "run.sh" (World.single "run.sh" (goBytes "echo hi\n"))
    (goBytes "echo hi\n") (by simp [World.single]) (by decide)
    (by simp [World.single, Env.quiet]) rfl rfl rfl

/-- C10 (what the code does): when only `os.Rename` fails, `addCopyright` returns normally,
having printed the path; the file is as it was and the stamped text is left in the
temporary file. -/
theorem addCopyright_rename_error_ignored :
    ∃ w1, addCopyright (Env.renameFails "/tmp/license1") ⟨2024, "MyProj"⟩ "a.go"
        (World.single "a.go" (goBytes "package main\n")) = Except.ok w1 ∧
      w1.files "a.go" = some (goBytes "package main\n") ∧
      w1.stdout = "a.go\n" ∧
      w1.files "/tmp/license1" = some (goBytes
        "// © 2024 the MyProj Authors under the MIT license. See AUTHORS for the list of authors.\n\npackage main\n") := by
  have hc : hasCopyright (goBytes "package main\n") = false := by decide
  refine ⟨{ files := (World.single "a.go" (goBytes "package main\n")).files.put "/tmp/license1"
              (goBytes "// © 2024 the MyProj Authors under the MIT license. See AUTHORS for the list of authors.\n\n"
                ++ goBytes "package main\n"),
            stdout := "a.go\n" }, ?_, ?_, ?_, ?_⟩
  · simp only [addCopyright, Env.renameFails, World.single]
    have ht : (commentStyleAt (pathExt "a.go")).Prefix ++ "© " ++ toString (2024 : Int) ++
        " the " ++ "MyProj" ++
        " Authors under the MIT license. See AUTHORS for the list of authors." ++
        (commentStyleAt (pathExt "a.go")).Suffix ++ "\n" =
        "// © 2024 the MyProj Authors under the MIT license. See AUTHORS for the list of authors.\n\n" := by
      decide
    simp [hc, renderCopyrightComment_text, ht]
  · simp [Files.put, World.single]
  · rfl
  · simp only [Files.put, if_true, ← goBytes_append]
    rfl

/-! ### Witnesses for the remaining statements -/

theorem sourceFiles_sampleTree :
    sourceFiles "." (FsNode.dir sampleTree) = Except.ok ["a.go", ".git/x.sh", "z.c"] := by
  rfl

/-- Witness for `sourceFiles_exact`: the sample tree. -/
theorem sourceFiles_exact_witness :
    (∃ found, sourceFiles "." (FsNode.dir sampleTree) = Except.ok found ∧
      ∀ p, p ∈ found ↔
        ∃ name, FileUnder "." sampleTree p name ∧
          pathExt name ∈ [".go", ".cpp", ".c", ".sh", ".bash"]) ∧
    (∀ name ext, ext ∈ [".go", ".cpp", ".c", ".sh", ".bash"] →
      (pathExt name = ext ↔ FinalDotSuffix name ext)) :=
  sourceFiles_exact "." sampleTree (by decide)

/-- Witness for `write_only_if_absent`: a LICENSE file that is already there. -/
theorem write_only_if_absent_witness :
    writeLicenseFile (Env.quiet "/tmp/license1") ⟨2024, "MyProj"⟩
        (World.single "LICENSE" (goBytes "All rights reserved.\n")) =
      Except.ok { files := (World.single "LICENSE" (goBytes "All rights reserved.\n")).files,
                  stdout := "" ++ "LICENSE file exists, skipping\n" } :=
  (write_only_if_absent (Env.quiet "/tmp/license1") ⟨2024, "MyProj"⟩ []
    (World.single "LICENSE" (goBytes "All rights reserved.\n"))).1 (by simp [World.single])

/-- Witness for `renderAuthors_lines`: two authors give two lines, in order. -/
theorem renderAuthors_lines_witness :
    ∃ text, renderAuthors ["Alice <a@x.com>", "Bob <b@y.com>"] = some text ∧
      textLines text.data [] = ["Alice <a@x.com>", "Bob <b@y.com>"] :=
  (renderAuthors_lines ["Alice <a@x.com>", "Bob <b@y.com>"]).2.2 (by decide)

end License
